import Mathlib

/-!
Verification of the verse-segmentation and theme-classification core of the
Quran card-rendering application.

The definitions below are a shallow embedding of the TypeScript source:
  - `convertToArabicNumerals`, `getDesignFromText`, and the grouping loop of
    `fetchVerseAndDesign` together with its helper `pushSegment`.
JS strings are modelled as Lean `String`, JS numbers for verse indices as
`Nat`, the opacity constant as a rational, and the single call to
`Math.floor(Math.random() * 3)` as an explicit parameter `rand : Fin 3`.
-/

set_option maxRecDepth 2048

namespace QuranCards

/-- BackgroundType enum from types.ts. -/
inductive BackgroundType where
  | SKY
  | NATURE
  | JANNAT
deriving DecidableEq, Repr

/-- DesignConfig from types.ts: backgroundType, textColor ('white' | 'black'), opacity. -/
structure DesignConfig where
  backgroundType : BackgroundType
  textColor : String
  opacity : ℚ
deriving DecidableEq, Repr

/-- One ayah record as consumed by the grouping loop: its number within the
surah and its text. -/
structure Ayah where
  numberInSurah : Nat
  text : String
deriving DecidableEq, Repr

/-- VerseSegment from types.ts; the `ayah` field is always produced as a
string by `pushSegment`. -/
structure VerseSegment where
  arabic : String
  translation : String
  surah : String
  ayah : String
deriving DecidableEq, Repr

/-- The ten Arabic-Indic digit characters, from `convertToArabicNumerals`. -/
def arabicDigits : List Char := ['٠', '١', '٢', '٣', '٤', '٥', '٦', '٧', '٨', '٩']

/-- `convertToArabicNumerals`: `n.toString().replace(/\d/g, d => arabicDigits[parseInt(d)])`.
Each decimal digit character of the decimal representation is replaced by the
corresponding Arabic-Indic digit character; non-digit characters (there are
none in a `Nat`'s representation) would be left unchanged. -/
def convertToArabicNumerals (n : Nat) : String :=
  String.mk ((toString n).data.map (fun c =>
    if c.isDigit then arabicDigits.getD (c.toNat - 48) c else c))

/-- Keyword list of the JANNAT category in `getDesignFromText`. -/
def jannatKeywords : List String :=
  ["paradise", "garden", "river", "heaven", "reward", "fruit", "shade",
   "eternity", "jannah", "bliss", "springs", "gold", "silk", "peace"]

/-- Keyword list of the SKY category in `getDesignFromText`. -/
def skyKeywords : List String :=
  ["sky", "sun", "moon", "star", "night", "day", "cloud", "rain", "thunder",
   "universe", "light", "darkness", "space", "planet", "orbit", "rising", "setting"]

/-- Keyword list of the NATURE category in `getDesignFromText`. -/
def natureKeywords : List String :=
  ["earth", "mountain", "sea", "ocean", "land", "water", "tree", "plant",
   "wind", "creation", "animal", "bird", "cattle", "camel", "desert", "rock"]

/-- The keyword table of `getDesignFromText` as a function of the category. -/
def keywordsFor : BackgroundType → List String
  | .JANNAT => jannatKeywords
  | .SKY => skyKeywords
  | .NATURE => natureKeywords

/-- Boolean test that `needle` starts the list `hay`. -/
def startsWithChars : List Char → List Char → Bool
  | [], _ => true
  | _ :: _, [] => false
  | c :: cs, d :: ds => (c = d) && startsWithChars cs ds

/-- Boolean test that `needle` occurs contiguously somewhere in `hay`:
the model of JS `String.prototype.includes`. -/
def hasSubList (needle : List Char) : List Char → Bool
  | [] => startsWithChars needle []
  | d :: ds => startsWithChars needle (d :: ds) || hasSubList needle ds

/-- `hay.includes(needle)` of JS, on Lean strings. -/
def containsSubstr (hay needle : String) : Bool :=
  hasSubList needle.data hay.data

/-- Character-wise lower-casing: the model of `text.toLowerCase()`. -/
def toLowerStr (s : String) : String :=
  String.mk (s.data.map Char.toLower)

/-- Score of one category in `getDesignFromText`: the number of its keywords
occurring as a substring of the lower-cased text (each keyword counted once). -/
def score (text : String) (t : BackgroundType) : Nat :=
  ((keywordsFor t).filter (fun w => containsSubstr (toLowerStr text) w)).length

/-- The fixed scan order `[NATURE, SKY, JANNAT]` used both by the selection
loop and by the random fallback of `getDesignFromText`. -/
def typesPriority : List BackgroundType :=
  [BackgroundType.NATURE, BackgroundType.SKY, BackgroundType.JANNAT]

/-- The selection loop of `getDesignFromText`: starting from
`bestType = NATURE, maxScore = -1`, scan `typesPriority` and keep the first
category whose score strictly exceeds the running maximum. -/
def selectBest (s : BackgroundType → Nat) : BackgroundType × Int :=
  typesPriority.foldl
    (fun acc t => if (s t : Int) > acc.2 then (t, (s t : Int)) else acc)
    (BackgroundType.NATURE, (-1 : Int))

/-- `getDesignFromText`: score the three categories, pick the best in scan
order, fall back to `typesPriority[rand]` when the maximum score is 0, and
attach the constant textColor 'white' and opacity 0.5. -/
def getDesignFromText (text : String) (rand : Fin 3) : DesignConfig :=
  let best := selectBest (score text)
  let bestType :=
    if best.2 = 0 then typesPriority.getD rand.val BackgroundType.NATURE else best.1
  { backgroundType := bestType, textColor := "white", opacity := 1/2 }

/-- TARGET_CARD_CAPACITY from `fetchVerseAndDesign`. -/
def TARGET_CARD_CAPACITY : Nat := 450

/-- The per-index pairing of the grouping loop:
`trans = transAyahs[i] || { text: '', numberInSurah: verse.numberInSurah }`.
When the translation list is exhausted, the verse is paired with an empty
translation text carrying the verse's own number. -/
def pairUp : List Ayah → List Ayah → List (Ayah × Ayah)
  | [], _ => []
  | v :: vs, [] => (v, ⟨v.numberInSurah, ""⟩) :: pairUp vs []
  | v :: vs, t :: ts => (v, t) :: pairUp vs ts

/-- Combined source-text length of a chunk of (verse, translation) pairs:
the running `currentLength` of the grouping loop equals this sum. -/
def sumLen (c : List (Ayah × Ayah)) : Nat :=
  (c.map (fun p => p.1.text.length)).sum

/-- The grouping loop of `fetchVerseAndDesign`: scan the pairs, and before
adding a verse close the current chunk when `currentLength + verseLength`
exceeds the capacity and the chunk is non-empty; after the scan, flush a
non-empty chunk. The arguments `cur` and `len` are the loop state
(`currentChunkArabic`/`currentChunkTrans` zipped, and `currentLength`). -/
def groupVerses (cap : Nat) : List (Ayah × Ayah) → List (Ayah × Ayah) → Nat →
    List (List (Ayah × Ayah))
  | [], cur, _ => if 0 < cur.length then [cur] else []
  | p :: ps, cur, len =>
    if cap < len + p.1.text.length ∧ 0 < cur.length then
      cur :: groupVerses cap ps [p] p.1.text.length
    else
      groupVerses cap ps (cur ++ [p]) (len + p.1.text.length)

/-- Segmentation of a list of (verse, translation) pairs with capacity `cap`,
starting from the empty loop state. -/
def segmentPairs (cap : Nat) (ps : List (Ayah × Ayah)) : List (List (Ayah × Ayah)) :=
  groupVerses cap ps [] 0

/-- The full segmentation performed by `fetchVerseAndDesign` on the fetched
arabic and translation ayah lists. -/
def segmentVerses (arabic transl : List Ayah) : List (List (Ayah × Ayah)) :=
  segmentPairs TARGET_CARD_CAPACITY (pairUp arabic transl)

/-- `pushSegment`: render one closed chunk into a VerseSegment. Arabic texts
are joined with single spaces, each followed by the end-of-ayah mark and the
Arabic-Indic verse number; translations are joined with single spaces, each
followed by the verse number in parentheses; the ayah label is the first
number alone when first and last coincide, else "first-last". -/
def mkSegment (arabicChunk transChunk : List Ayah) (surahName : String) : VerseSegment :=
  let firstNum := (arabicChunk.headD ⟨0, ""⟩).numberInSurah
  let lastNum := (arabicChunk.getLastD ⟨0, ""⟩).numberInSurah
  let arabicText :=
    " ".intercalate (arabicChunk.map (fun a =>
      a.text ++ " ۝" ++ convertToArabicNumerals a.numberInSurah))
  let transText :=
    " ".intercalate (transChunk.map (fun t =>
      t.text ++ " (" ++ toString t.numberInSurah ++ ")"))
  { arabic := arabicText
    translation := transText
    surah := surahName
    ayah := if firstNum = lastNum then toString firstNum
            else toString firstNum ++ "-" ++ toString lastNum }

/-- The rendered segment list of `fetchVerseAndDesign`: each closed chunk is
pushed through `pushSegment`. -/
def segmentsOf (arabic transl : List Ayah) (surahName : String) : List VerseSegment :=
  (segmentVerses arabic transl).map
    (fun c => mkSegment (c.map Prod.fst) (c.map Prod.snd) surahName)

/-- Maximality of adjacent chunks: each non-final chunk, extended by the
first verse of the following chunk, would exceed the capacity. -/
def maximalChain (cap : Nat) : List (List (Ayah × Ayah)) → Prop
  | c1 :: c2 :: rest =>
    (∀ p, c2.head? = some p → cap < sumLen c1 + p.1.text.length) ∧
      maximalChain cap (c2 :: rest)
  | _ => True

/-- Modelled from the spec: the selection rule in its own words — the
category with the strictly highest score, ties resolved in the priority
order nature, sky, paradise. Used only to compare the code's selection
loop against the spec. -/
def specPrioritySelect (sN sS sJ : Nat) : BackgroundType :=
  if sS ≤ sN ∧ sJ ≤ sN then BackgroundType.NATURE
  else if sJ ≤ sS then BackgroundType.SKY
  else BackgroundType.JANNAT

/-- First verse number of a chunk, as read by `pushSegment` from the head of
its arabic chunk. -/
def firstNumOf (c : List (Ayah × Ayah)) : Nat :=
  ((c.map Prod.fst).headD ⟨0, ""⟩).numberInSurah

/-- Last verse number of a chunk, as read by `pushSegment` from the last
entry of its arabic chunk. -/
def lastNumOf (c : List (Ayah × Ayah)) : Nat :=
  ((c.map Prod.fst).getLastD ⟨0, ""⟩).numberInSurah

/-- A small concrete verse pair used to exercise the definitions. -/
def samplePair1 : Ayah × Ayah := (⟨1, "ab"⟩, ⟨1, "ta"⟩)

/-- A second small concrete verse pair. -/
def samplePair2 : Ayah × Ayah := (⟨2, "cd"⟩, ⟨2, "tb"⟩)

/-- A concrete verse pair whose source text alone exceeds the capacity. -/
def sampleBig : Ayah × Ayah := (⟨1, String.mk (List.replicate 451 'a')⟩, ⟨1, ""⟩)

/-- Four short consecutive verses numbered 5 through 8. -/
def sampleFour : List (Ayah × Ayah) :=
  [(⟨5, "a"⟩, ⟨5, "t"⟩), (⟨6, "b"⟩, ⟨6, "u"⟩), (⟨7, "c"⟩, ⟨7, "v"⟩), (⟨8, "d"⟩, ⟨8, "w"⟩)]

/-! Helper lemmas about the grouping loop. -/

/-- Concatenating the chunks produced from loop state `(cur, len)` recovers
`cur` followed by the remaining input. -/
theorem join_groupVerses (cap : Nat) (ps : List (Ayah × Ayah)) :
    ∀ cur len, (groupVerses cap ps cur len).flatten = cur ++ ps := by
  induction ps with
  | nil =>
    intro cur len
    simp only [groupVerses]
    split
    · simp
    · next h =>
      have : cur = [] := by
        cases cur with
        | nil => rfl
        | cons a l => simp at h
      simp [this]
  | cons p ps ih =>
    intro cur len
    simp only [groupVerses]
    split
    · simp [ih]
    · rw [ih]
      simp

/-- Every chunk the loop emits is non-empty. -/
theorem nonempty_groupVerses (cap : Nat) (ps : List (Ayah × Ayah)) :
    ∀ cur len c, c ∈ groupVerses cap ps cur len → c ≠ [] := by
  induction ps with
  | nil =>
    intro cur len c hc
    simp only [groupVerses] at hc
    split at hc
    · next h =>
      simp at hc
      subst hc
      intro h2
      subst h2
      simp at h
    · simp at hc
  | cons p ps ih =>
    intro cur len c hc
    simp only [groupVerses] at hc
    split at hc
    · next h =>
      rcases List.mem_cons.mp hc with h1 | h1
      · subst h1
        intro h2
        subst h2
        simp at h
      · exact ih _ _ _ h1
    · exact ih _ _ _ hc

/-- Capacity invariant: when the loop state satisfies `len = sumLen cur` and
the current chunk respects the cap whenever it has at least two verses, every
emitted chunk with at least two verses has combined length at most `cap`. -/
theorem capped_groupVerses (cap : Nat) (ps : List (Ayah × Ayah)) :
    ∀ cur len, len = sumLen cur → (2 ≤ cur.length → sumLen cur ≤ cap) →
      ∀ c ∈ groupVerses cap ps cur len, 2 ≤ c.length → sumLen c ≤ cap := by
  induction ps with
  | nil =>
    intro cur len hlen hcur c hc
    simp only [groupVerses] at hc
    split at hc
    · simp at hc
      subst hc
      exact hcur
    · simp at hc
  | cons p ps ih =>
    intro cur len hlen hcur c hc
    simp only [groupVerses] at hc
    split at hc
    · next h =>
      rcases List.mem_cons.mp hc with h1 | h1
      · subst h1
        exact hcur
      · refine ih [p] _ ?_ ?_ c h1
        · simp [sumLen]
        · intro h2
          simp at h2
    · next h =>
      refine ih (cur ++ [p]) _ ?_ ?_ c hc
      · simp [sumLen, hlen]
      · intro h2
        have hs : sumLen (cur ++ [p]) = len + p.1.text.length := by
          simp [sumLen, hlen]
        rw [hs]
        rcases Nat.lt_or_ge cap (len + p.1.text.length) with hlt | hle
        · exfalso
          apply h
          refine ⟨hlt, ?_⟩
          have : cur ≠ [] := by
            intro hnil
            subst hnil
            simp at h2
          cases cur with
          | nil => exact absurd rfl this
          | cons a l => simp
        · exact hle

/-- The first chunk eventually emitted from a non-empty loop state begins
with the state's first verse. -/
theorem head_groupVerses (cap : Nat) (ps : List (Ayah × Ayah)) :
    ∀ v l len, ∃ t rest, groupVerses cap ps (v :: l) len = (v :: t) :: rest := by
  induction ps with
  | nil =>
    intro v l len
    refine ⟨l, [], ?_⟩
    simp [groupVerses]
  | cons p ps ih =>
    intro v l len
    simp only [groupVerses]
    split
    · exact ⟨l, _, rfl⟩
    · rcases ih v (l ++ [p]) (len + p.1.text.length) with ⟨t, rest, h⟩
      exact ⟨t, rest, h⟩

/-- Maximality invariant: from any loop state whose running length matches
the current chunk, adjacent emitted chunks satisfy `maximalChain`. -/
theorem maximal_groupVerses (cap : Nat) (ps : List (Ayah × Ayah)) :
    ∀ cur len, len = sumLen cur → maximalChain cap (groupVerses cap ps cur len) := by
  induction ps with
  | nil =>
    intro cur len hlen
    simp only [groupVerses]
    split
    · simp [maximalChain]
    · simp [maximalChain]
  | cons p ps ih =>
    intro cur len hlen
    simp only [groupVerses]
    split
    · next h =>
      rcases head_groupVerses cap ps p [] p.1.text.length with ⟨t, rest, heq⟩
      rw [heq]
      constructor
      · intro q hq
        simp at hq
        subst hq
        rw [← hlen]
        exact h.1
      · rw [← heq]
        exact ih [p] _ (by simp [sumLen])
    · exact ih (cur ++ [p]) _ (by simp [sumLen, hlen])

/-- Every emitted chunk is a contiguous slice of `cur ++ ps`. -/
theorem chunks_contiguous (cap : Nat) (ps : List (Ayah × Ayah)) :
    ∀ cur len c, c ∈ groupVerses cap ps cur len → c <:+: cur ++ ps := by
  induction ps with
  | nil =>
    intro cur len c hc
    simp only [groupVerses] at hc
    split at hc
    · simp at hc
      subst hc
      simp
    · simp at hc
  | cons p ps ih =>
    intro cur len c hc
    simp only [groupVerses] at hc
    split at hc
    · rcases List.mem_cons.mp hc with h1 | h1
      · subst h1
        exact ⟨[], p :: ps, by simp⟩
      · have h2 := ih [p] _ c h1
        simp at h2
        exact h2.trans ⟨cur, [], by simp⟩
    · have := ih (cur ++ [p]) _ c hc
      simpa using this

/-! Helper lemmas about the translation pairing. -/

/-- Projecting the pairs to their verse component recovers the arabic list. -/
theorem map_fst_pairUp : ∀ (a t : List Ayah), (pairUp a t).map Prod.fst = a
  | [], _ => rfl
  | v :: vs, [] => by simp [pairUp, map_fst_pairUp vs []]
  | v :: vs, t :: ts => by simp [pairUp, map_fst_pairUp vs ts]

/-- The pairing has one entry per verse of the arabic list. -/
theorem length_pairUp : ∀ (a t : List Ayah), (pairUp a t).length = a.length
  | [], _ => rfl
  | v :: vs, [] => by simp [pairUp, length_pairUp vs []]
  | v :: vs, t :: ts => by simp [pairUp, length_pairUp vs ts]

/-- Past the end of the translation list, a verse is paired with the fallback
record: empty text and the verse's own number. -/
theorem pairUp_getElem_of_le :
    ∀ (a t : List Ayah) (i : Nat) (v : Ayah), t.length ≤ i → a[i]? = some v →
      (pairUp a t)[i]? = some (v, ⟨v.numberInSurah, ""⟩) := by
  intro a
  induction a with
  | nil =>
    intro t i v _ hv
    simp at hv
  | cons w ws ih =>
    intro t i v hle hv
    cases t with
    | nil =>
      cases i with
      | zero =>
        simp at hv
        subst hv
        simp [pairUp]
      | succ j =>
        simp only [pairUp, List.getElem?_cons_succ] at hv ⊢
        exact ih [] j v (by simp) hv
    | cons u us =>
      cases i with
      | zero => simp at hle
      | succ j =>
        simp only [pairUp, List.getElem?_cons_succ] at hv ⊢
        exact ih us j v (by simpa using hle) hv

/-- Within the translation list, a verse is paired with the translation at
the same index. -/
theorem pairUp_getElem_of_lt :
    ∀ (a t : List Ayah) (i : Nat) (v u : Ayah), a[i]? = some v → t[i]? = some u →
      (pairUp a t)[i]? = some (v, u) := by
  intro a
  induction a with
  | nil =>
    intro t i v u hv _
    simp at hv
  | cons w ws ih =>
    intro t i v u hv hu
    cases t with
    | nil => simp at hu
    | cons x xs =>
      cases i with
      | zero =>
        simp at hv hu
        subst hv
        subst hu
        simp [pairUp]
      | succ j =>
        simp only [pairUp, List.getElem?_cons_succ] at hv hu ⊢
        exact ih xs j v u hv hu

/-! General helper lemmas. -/

/-- A member of a list of naturals is at most the list's sum. -/
theorem le_sum_of_mem_nat {l : List Nat} {a : Nat} (h : a ∈ l) : a ≤ l.sum := by
  induction l with
  | nil => simp at h
  | cons b m ih =>
    rcases List.mem_cons.mp h with h1 | h1
    · subst h1
      simp
    · have := ih h1
      simp only [List.sum_cons]
      omega

/-- A list of non-empty lists has no more entries than its flattening. -/
theorem length_le_flatten_length {α : Type} :
    ∀ (L : List (List α)), (∀ c ∈ L, c ≠ []) → L.length ≤ L.flatten.length := by
  intro L
  induction L with
  | nil => simp
  | cons c L ih =>
    intro h
    have hc : c ≠ [] := h c (by simp)
    have h1 : 1 ≤ c.length := List.length_pos.mpr hc
    have h2 := ih (fun x hx => h x (by simp [hx]))
    simp only [List.flatten_cons, List.length_append, List.length_cons]
    omega

/-- In a chunk whose verse numbers are strictly increasing, the first number
is strictly below the last when the chunk has at least two verses. -/
theorem head_lt_getLastD (d a b : Ayah) (m : List Ayah)
    (h : List.Pairwise (fun x y : Ayah => x.numberInSurah < y.numberInSurah) (a :: b :: m)) :
    a.numberInSurah < ((a :: b :: m).getLastD d).numberInSurah := by
  have hne : b :: m ≠ [] := by simp
  have hmem : (a :: b :: m).getLast (by simp) ∈ b :: m := by
    rw [List.getLast_cons hne]
    exact List.getLast_mem hne
  have hrel := (List.pairwise_cons.mp h).1 _ hmem
  have hD : (a :: b :: m).getLastD d = (a :: b :: m).getLast (by simp) := by
    simp [List.getLastD_eq_getLast?, List.getLast?_eq_getLast]
  rw [hD]
  exact hrel

/-! Helper lemmas about the decimal representation of a natural number. -/

/-- Each digit value below ten renders as a decimal digit character. -/
theorem digitChar_isDigit (m : Nat) (h : m < 10) : (Nat.digitChar m).isDigit = true := by
  interval_cases m <;> decide

/-- Every character produced by `Nat.toDigitsCore` in base 10 onto an
all-digit accumulator is a decimal digit character. -/
theorem toDigitsCore_isDigit :
    ∀ (fuel n : Nat) (ds : List Char), (∀ c ∈ ds, c.isDigit = true) →
      ∀ c ∈ Nat.toDigitsCore 10 fuel n ds, c.isDigit = true := by
  intro fuel
  induction fuel with
  | zero =>
    intro n ds h c hc
    exact h c hc
  | succ fuel ih =>
    intro n ds h c hc
    simp only [Nat.toDigitsCore] at hc
    have hd : (Nat.digitChar (n % 10)).isDigit = true :=
      digitChar_isDigit _ (Nat.mod_lt _ (by norm_num))
    split at hc
    · rcases List.mem_cons.mp hc with h1 | h1
      · subst h1
        exact hd
      · exact h c h1
    · refine ih _ _ ?_ c hc
      intro x hx
      rcases List.mem_cons.mp hx with h1 | h1
      · subst h1
        exact hd
      · exact h x h1

/-- The characters of a natural number's string representation are exactly
`Nat.toDigits 10 n`. -/
theorem toString_nat_data (n : Nat) : (toString n).data = Nat.toDigits 10 n := rfl

/-- Every character of a natural number's decimal representation is a
decimal digit character. -/
theorem toString_nat_isDigit (n : Nat) : ∀ c ∈ (toString n).data, c.isDigit = true := by
  rw [toString_nat_data]
  exact toDigitsCore_isDigit (n + 1) n [] (by simp)

/-! Helper lemmas about the classifier's selection loop. -/

/-- The selection loop keeps the first category, in the scan order
`[NATURE, SKY, JANNAT]`, whose score strictly exceeds every earlier score. -/
theorem selectBest_fst (s : BackgroundType → Nat) :
    (selectBest s).1 =
      if s .SKY ≤ s .NATURE then
        (if s .JANNAT ≤ s .NATURE then BackgroundType.NATURE else BackgroundType.JANNAT)
      else
        (if s .JANNAT ≤ s .SKY then BackgroundType.SKY else BackgroundType.JANNAT) := by
  simp only [selectBest, typesPriority, List.foldl]
  split_ifs <;> simp_all <;> omega

/-- After the scan, the running maximum equals the greatest of the three
scores. -/
theorem selectBest_snd (s : BackgroundType → Nat) :
    (selectBest s).2 = ((max (s .NATURE) (max (s .SKY) (s .JANNAT)) : Nat) : Int) := by
  simp only [selectBest, typesPriority, List.foldl]
  split_ifs <;> simp_all <;> omega

/-! Claim theorems. -/

/-- C1: the segments produced by the Segmenter partition the input exactly —
concatenating the chunks in order reconstructs the input pair sequence, so
every verse appears in exactly one segment, segments hold consecutive verses
in input order with no gaps, overlaps or repeats; the pairing preserves the
arabic verse sequence, and the empty input yields the empty segment
sequence. -/
theorem segments_partition_input (arabic transl : List Ayah) :
    (segmentVerses arabic transl).flatten = pairUp arabic transl ∧
    (pairUp arabic transl).map Prod.fst = arabic ∧
    segmentVerses [] transl = [] :=
  ⟨join_groupVerses TARGET_CARD_CAPACITY (pairUp arabic transl) [] 0,
    map_fst_pairUp arabic transl, rfl⟩

/-- C2: every produced segment holding at least two verses has combined
source-text length at most the capacity C = 450, and segments are maximal:
each non-final segment, extended with the first verse of the following
segment, would exceed the capacity. -/
theorem segments_capped_and_maximal (ps : List (Ayah × Ayah)) :
    (∀ c ∈ segmentPairs TARGET_CARD_CAPACITY ps,
        2 ≤ c.length → sumLen c ≤ TARGET_CARD_CAPACITY) ∧
    maximalChain TARGET_CARD_CAPACITY (segmentPairs TARGET_CARD_CAPACITY ps) ∧
    TARGET_CARD_CAPACITY = 450 := by
  refine ⟨?_, ?_, rfl⟩
  · intro c hc
    exact capped_groupVerses TARGET_CARD_CAPACITY ps [] 0 rfl (by intro h; simp at h) c hc
  · exact maximal_groupVerses TARGET_CARD_CAPACITY ps [] 0 rfl

/-- Witness for C2 at a concrete two-verse input whose single segment holds
both verses. -/
theorem segments_capped_and_maximal_witness :
    [samplePair1, samplePair2] ∈ segmentPairs TARGET_CARD_CAPACITY [samplePair1, samplePair2] ∧
    2 ≤ ([samplePair1, samplePair2] : List (Ayah × Ayah)).length ∧
    sumLen [samplePair1, samplePair2] ≤ TARGET_CARD_CAPACITY :=
  ⟨by decide, by decide,
    (segments_capped_and_maximal [samplePair1, samplePair2]).1
      [samplePair1, samplePair2] (by decide) (by decide)⟩

/-- C3: a verse whose source text alone exceeds the capacity still appears
in the output and occupies a segment by itself — it is neither dropped nor
split, and no other verse shares its segment. -/
theorem oversized_verse_own_segment (ps : List (Ayah × Ayah)) (p : Ayah × Ayah)
    (hp : p ∈ ps) (hbig : TARGET_CARD_CAPACITY < p.1.text.length) :
    ∃ c ∈ segmentPairs TARGET_CARD_CAPACITY ps, p ∈ c ∧ c = [p] := by
  have hj := join_groupVerses TARGET_CARD_CAPACITY ps [] 0
  have hpj : p ∈ (segmentPairs TARGET_CARD_CAPACITY ps).flatten := by
    simp only [segmentPairs]
    rw [hj]
    simpa using hp
  rcases List.mem_flatten.mp hpj with ⟨c, hc, hpc⟩
  refine ⟨c, hc, hpc, ?_⟩
  have hcap := capped_groupVerses TARGET_CARD_CAPACITY ps [] 0 rfl (by intro h; simp at h) c hc
  have hple : p.1.text.length ≤ sumLen c := by
    simp only [sumLen]
    exact le_sum_of_mem_nat (List.mem_map_of_mem _ hpc)
  have hlen1 : c.length ≤ 1 := by
    by_contra hgt
    push_neg at hgt
    have := hcap hgt
    omega
  cases c with
  | nil => simp at hpc
  | cons a l =>
    cases l with
    | nil =>
      simp at hpc
      subst hpc
      rfl
    | cons b m => simp at hlen1

/-- Witness for C3: a 451-character verse becomes its own segment. -/
theorem oversized_verse_own_segment_witness :
    sampleBig ∈ [sampleBig] ∧ TARGET_CARD_CAPACITY < sampleBig.1.text.length ∧
    ∃ c ∈ segmentPairs TARGET_CARD_CAPACITY [sampleBig], sampleBig ∈ c ∧ c = [sampleBig] :=
  ⟨by simp, by simp [sampleBig, TARGET_CARD_CAPACITY, String.length],
    oversized_verse_own_segment [sampleBig] sampleBig (by simp)
      (by simp [sampleBig, TARGET_CARD_CAPACITY, String.length])⟩

/-- C4: when the translation list is shorter than the verse list, the
Segmenter does not fail: at each missing index the verse is paired with an
empty translation carrying the verse's own number, the pairing still has one
entry per verse, and segmentation still partitions the padded sequence. -/
theorem missing_translation_fallback (arabic transl : List Ayah) (i : Nat) (v : Ayah)
    (hlen : transl.length ≤ i) (hv : arabic[i]? = some v) :
    (pairUp arabic transl)[i]? = some (v, ⟨v.numberInSurah, ""⟩) ∧
    (pairUp arabic transl).length = arabic.length ∧
    (segmentVerses arabic transl).flatten = pairUp arabic transl :=
  ⟨pairUp_getElem_of_le arabic transl i v hlen hv, length_pairUp arabic transl,
    join_groupVerses TARGET_CARD_CAPACITY (pairUp arabic transl) [] 0⟩

/-- Witness for C4: one verse and an empty translation list. -/
theorem missing_translation_fallback_witness :
    ([] : List Ayah).length ≤ 0 ∧ ([⟨7, "abc"⟩] : List Ayah)[0]? = some ⟨7, "abc"⟩ ∧
    (pairUp [⟨7, "abc"⟩] [])[0]? = some (⟨7, "abc"⟩, ⟨7, ""⟩) :=
  ⟨by decide, by decide,
    (missing_translation_fallback [⟨7, "abc"⟩] [] 0 ⟨7, "abc"⟩ (by decide) (by decide)).1⟩

/-- C5: whenever any keyword matched (some score is positive), the
classifier returns the category with the strictly highest keyword score,
ties for the highest score resolved by the priority order nature, sky,
paradise — the statement compares the code's selection loop with the spec's
selection rule `specPrioritySelect`. -/
theorem classifier_picks_priority_argmax (text : String) (rand : Fin 3)
    (h : 0 < score text .NATURE ∨ 0 < score text .SKY ∨ 0 < score text .JANNAT) :
    (getDesignFromText text rand).backgroundType =
      specPrioritySelect (score text .NATURE) (score text .SKY) (score text .JANNAT) := by
  have h1 := selectBest_fst (score text)
  have h2 := selectBest_snd (score text)
  simp only [getDesignFromText]
  split
  · next hz =>
    rw [h2] at hz
    exfalso
    rcases h with h | h | h <;> omega
  · rw [h1]
    simp only [specPrioritySelect]
    split_ifs <;> first | rfl | omega

/-- Witness for C5: the text "sun" scores 1 for sky only and is classified
as SKY. -/
theorem classifier_picks_priority_argmax_witness :
    (0 < score "sun" .NATURE ∨ 0 < score "sun" .SKY ∨ 0 < score "sun" .JANNAT) ∧
    (getDesignFromText "sun" 0).backgroundType =
      specPrioritySelect (score "sun" .NATURE) (score "sun" .SKY) (score "sun" .JANNAT) :=
  ⟨by decide, classifier_picks_priority_argmax "sun" 0 (by decide)⟩

/-- C6: the classifier always returns one of the three enumerated categories
(it cannot fail, including on the empty string), and when no keyword matched
(all three scores are zero) the result is the entry of the priority list
picked by the random draw, so every category is the outcome of some draw
rather than a fixed default. -/
theorem classifier_total_and_random_fallback (text : String) (rand : Fin 3) :
    ((getDesignFromText text rand).backgroundType = .NATURE ∨
      (getDesignFromText text rand).backgroundType = .SKY ∨
      (getDesignFromText text rand).backgroundType = .JANNAT) ∧
    (score text .NATURE = 0 ∧ score text .SKY = 0 ∧ score text .JANNAT = 0 →
      (getDesignFromText text rand).backgroundType =
        typesPriority.getD rand.val BackgroundType.NATURE) := by
  constructor
  · cases h : (getDesignFromText text rand).backgroundType <;> simp
  · intro hz
    obtain ⟨hN, hS, hJ⟩ := hz
    have h2 := selectBest_snd (score text)
    simp only [getDesignFromText]
    split
    · rfl
    · next hne =>
      exfalso
      rw [h2, hN, hS, hJ] at hne
      simp at hne

/-- Witness for C6: the empty string scores zero everywhere and draw 1 yields
the second priority entry, SKY. -/
theorem classifier_total_and_random_fallback_witness :
    (score "" .NATURE = 0 ∧ score "" .SKY = 0 ∧ score "" .JANNAT = 0) ∧
    (getDesignFromText "" 1).backgroundType =
      typesPriority.getD (1 : Fin 3).val BackgroundType.NATURE :=
  ⟨by decide, (classifier_total_and_random_fallback "" 1).2 (by decide)⟩

/-- C7: the numeral conversion maps each decimal digit character of the
decimal representation to the corresponding Arabic-Indic digit character,
preserving digit order and count; 123 renders as "١٢٣" and 0 as "٠". -/
theorem arabic_numeral_conversion :
    convertToArabicNumerals 123 = "١٢٣" ∧ convertToArabicNumerals 0 = "٠" ∧
    ∀ n : Nat,
      (convertToArabicNumerals n).data =
        (toString n).data.map (fun c => arabicDigits.getD (c.toNat - 48) c) ∧
      (convertToArabicNumerals n).length = (toString n).length := by
  refine ⟨by decide, by decide, fun n => ⟨?_, ?_⟩⟩
  · have hd : (convertToArabicNumerals n).data =
        (toString n).data.map (fun c =>
          if c.isDigit then arabicDigits.getD (c.toNat - 48) c else c) := rfl
    rw [hd]
    apply List.map_congr_left
    intro c hc
    simp [toString_nat_isDigit n c hc]
  · have hl : (convertToArabicNumerals n).length =
        ((toString n).data.map (fun c =>
          if c.isDigit then arabicDigits.getD (c.toNat - 48) c else c)).length := rfl
    rw [hl, List.length_map]
    rfl

/-- C8: for segments produced from an input whose verse numbers strictly
increase, the ayah-range label is the first verse's number alone exactly
when the segment holds one verse, and "first-last" (first number, hyphen,
last number) when it holds more than one. -/
theorem ayah_range_label (ps : List (Ayah × Ayah)) (surah : String)
    (hinc : List.Pairwise (fun p q : Ayah × Ayah => p.1.numberInSurah < q.1.numberInSurah) ps)
    (c : List (Ayah × Ayah)) (hc : c ∈ segmentPairs TARGET_CARD_CAPACITY ps) :
    (mkSegment (c.map Prod.fst) (c.map Prod.snd) surah).ayah =
      if c.length = 1 then toString (firstNumOf c)
      else toString (firstNumOf c) ++ "-" ++ toString (lastNumOf c) := by
  have hne := nonempty_groupVerses TARGET_CARD_CAPACITY ps [] 0 c hc
  have hsub : List.Sublist c ps := by
    have h := chunks_contiguous TARGET_CARD_CAPACITY ps [] 0 c hc
    simpa using h.sublist
  have hpc := List.Pairwise.sublist hsub hinc
  cases c with
  | nil => exact absurd rfl hne
  | cons a l =>
    cases l with
    | nil => simp [mkSegment, firstNumOf, lastNumOf]
    | cons b m =>
      have hmapinc : List.Pairwise (fun x y : Ayah => x.numberInSurah < y.numberInSurah)
          ((a :: b :: m).map Prod.fst) := List.pairwise_map.mpr hpc
      have hlt : a.1.numberInSurah <
          ((a.1 :: b.1 :: (m.map Prod.fst)).getLastD ⟨0, ""⟩).numberInSurah := by
        apply head_lt_getLastD
        simpa using hmapinc
      have hlen : ((a :: b :: m) : List (Ayah × Ayah)).length ≠ 1 := by simp
      rw [if_neg hlen]
      simp only [mkSegment, firstNumOf, lastNumOf, List.map_cons, List.headD_cons]
      rw [if_neg (Nat.ne_of_lt hlt)]

/-- Witness for C8: verses 5 through 8 fit in one segment labelled "5-8". -/
theorem ayah_range_label_witness :
    (mkSegment (sampleFour.map Prod.fst) (sampleFour.map Prod.snd) "S").ayah =
      if sampleFour.length = 1 then toString (firstNumOf sampleFour)
      else toString (firstNumOf sampleFour) ++ "-" ++ toString (lastNumOf sampleFour) :=
  ayah_range_label sampleFour "S" (by decide) sampleFour (by decide)

/-- C9: the classifier's output always carries the constant text color
"white" and overlay opacity 1/2, independent of the input text and the
random draw; any two runs agree on these two fields. -/
theorem design_constants_fixed (t1 t2 : String) (r1 r2 : Fin 3) :
    (getDesignFromText t1 r1).textColor = "white" ∧
    (getDesignFromText t1 r1).opacity = 1/2 ∧
    (getDesignFromText t1 r1).textColor = (getDesignFromText t2 r2).textColor ∧
    (getDesignFromText t1 r1).opacity = (getDesignFromText t2 r2).opacity :=
  ⟨rfl, rfl, rfl, rfl⟩

/-- C10: every produced segment contains at least one verse, and the number
of segments never exceeds the number of input verses. -/
theorem no_empty_segments (ps : List (Ayah × Ayah)) :
    (∀ c ∈ segmentPairs TARGET_CARD_CAPACITY ps, c ≠ []) ∧
    (segmentPairs TARGET_CARD_CAPACITY ps).length ≤ ps.length := by
  have hne : ∀ c ∈ segmentPairs TARGET_CARD_CAPACITY ps, c ≠ [] :=
    fun c hc => nonempty_groupVerses TARGET_CARD_CAPACITY ps [] 0 c hc
  refine ⟨hne, ?_⟩
  have h1 := length_le_flatten_length (segmentPairs TARGET_CARD_CAPACITY ps) hne
  have hj := join_groupVerses TARGET_CARD_CAPACITY ps [] 0
  calc (segmentPairs TARGET_CARD_CAPACITY ps).length
      ≤ (segmentPairs TARGET_CARD_CAPACITY ps).flatten.length := h1
    _ = ps.length := by
        simp only [segmentPairs]
        rw [hj]
        simp

/-- Witness for C10: a one-pair input yields one non-empty segment. -/
theorem no_empty_segments_witness :
    [samplePair1] ∈ segmentPairs TARGET_CARD_CAPACITY [samplePair1] ∧
    [samplePair1] ≠ ([] : List (Ayah × Ayah)) :=
  ⟨by decide, (no_empty_segments [samplePair1]).1 [samplePair1] (by decide)⟩

end QuranCards
